import Mathlib

/-!
Verification development for the poly(A) consensus-peak pipeline
(merge_sites.py).  The Python source is shallowly embedded below:
pure functions become Lean functions on lists, the external interval
engine (bedtools) is modelled from its interface contract in the spec,
and code paths that raise exceptions return Except values.  All
definitions are executable structural recursions so that concrete
pipeline runs evaluate inside the kernel.
-/

namespace MergeSites

/- ------------------------------------------------------------------
String utilities.

Python string operations used by the source (split, rsplit, int(),
basename, "%d" formatting) are re-implemented here as structural
recursions over character lists so that they compute by kernel
reduction.  Only the behaviour the source exercises is modelled:
single-character separators and plain decimal integers.
------------------------------------------------------------------- -/

/-- Split a character list at every occurrence of the separator
character, like the Python split method with a one-character
separator.  The result always has at least one (possibly empty)
piece. -/
def splitCharsAux (sep : Char) (cur : List Char) : List Char → List (List Char)
  | [] => [cur.reverse]
  | c :: cs =>
    if c = sep then cur.reverse :: splitCharsAux sep [] cs
    else splitCharsAux sep (c :: cur) cs

/-- Python style split of a string on a one-character separator. -/
def strSplit (s : String) (sep : Char) : List String :=
  (splitCharsAux sep [] s.toList).map String.mk

/-- The piece of a name after the last colon: the Python expression
name.rsplit(":", 1)[-1], which is the whole string when no colon is
present. -/
def afterLastColon (s : String) : String :=
  (strSplit s ':').getLastD s

/-- The piece of a name before the first colon, used as the region
identifier of a synthetic name such as peak_3:2. -/
def regionId (s : String) : String :=
  (strSplit s ':').headD s

/-- Decimal digit value of a character, if it is a digit. -/
def charDigit (c : Char) : Option Nat :=
  if 48 ≤ c.toNat ∧ c.toNat ≤ 57 then some (c.toNat - 48) else none

/-- Parse a non-empty list of decimal digits as a natural number. -/
def parseNatAux (acc : Nat) : List Char → Option Nat
  | [] => some acc
  | c :: cs =>
    match charDigit c with
    | some d => parseNatAux (acc * 10 + d) cs
    | none => none

/-- Parse a decimal integer with an optional leading minus sign, the
behaviour of the Python int() constructor on the clean inputs this
pipeline feeds it.  Returns none when the text is not an integer,
which in the source raises ValueError. -/
def parseInt (s : String) : Option Int :=
  match s.toList with
  | [] => none
  | '-' :: rest =>
    match rest with
    | [] => none
    | _ => (parseNatAux 0 rest).map (fun n => -(n : Int))
  | l => (parseNatAux 0 l).map (fun n => (n : Int))

/-- Render a natural number in decimal, the Python %d format.  Fuel
recursion keeps the definition structural so it reduces in the
kernel; the fuel argument is always at least the number itself. -/
def natToStrAux : Nat → Nat → List Char
  | 0, _ => []
  | _ + 1, 0 => []
  | fuel + 1, n => natToStrAux fuel (n / 10) ++ [Char.ofNat (48 + n % 10)]

/-- Decimal rendering of a natural number. -/
def natToStr (n : Nat) : String :=
  if n = 0 then "0" else String.mk (natToStrAux n n)

/-- Everything after the final slash of a path, the os.path.basename
of the source (inputs here never end in a slash). -/
def basename (path : String) : String :=
  (strSplit path '/').getLastD path

/-- The sample identifier derived from a file name: the leading token
of the basename before the first dot, then before the first
underscore, as computed in filter_peaks. -/
def sampleId (path : String) : String :=
  ((strSplit ((strSplit (basename path) '.').headD "") '_').headD "")

/- ------------------------------------------------------------------
Data model: six-column classified peak records as read by the
pipeline, and the intermediate record shapes of each stage.
------------------------------------------------------------------- -/

/-- A six-column bed record: a classified peak or a gene/exon
feature.  Coordinates are natural numbers; name carries the
classification suffix for peaks and the gene symbol for exons. -/
structure Bed6 where
  chrom : String
  start : Nat
  stop : Nat
  name : String
  score : String
  strand : String
deriving DecidableEq, Repr

/-- A consensus region line as written by multi_intersect before
annotation: four columns, the name being peak_i. -/
structure Bed4 where
  chrom : String
  start : Nat
  stop : Nat
  name : String
deriving DecidableEq, Repr

/-- A working-set row during the iterative overlay annotation: the
four region columns plus one accumulated collapsed-names column per
sample already processed (the columns after the name field). -/
structure WorkRow where
  chrom : String
  start : Nat
  stop : Nat
  name : String
  votes : List String
deriving DecidableEq, Repr

/-- One row of the multi-sample coverage computation: a maximal span
together with the number of distinct samples covering it. -/
structure CovRow where
  chrom : String
  start : Nat
  stop : Nat
  num : Nat
deriving DecidableEq, Repr

/-- A bare interval during gap merging. -/
structure Iv where
  chrom : String
  start : Nat
  stop : Nat
deriving DecidableEq, Repr

/- ------------------------------------------------------------------
PeakClassifier: filter_peaks of the source.  For each input file the
sample id is derived from the file name and each line is kept when
the integer after the first colon of its name is in the accepted
class set.  A line whose class does not parse raises ValueError in
the source, modelled as an Except error.  The results are collected
in a dict keyed by sample id; a duplicate sample id silently
overwrites the earlier entry.
------------------------------------------------------------------- -/

/-- The classification code of a peak name: the Python expression
int(name.split(":")[1]).  none models the ValueError raised when the
name has no second colon-separated field or it is not an integer. -/
def classOf (name : String) : Option Int :=
  match (strSplit name ':').get? 1 with
  | some piece => parseInt piece
  | none => none

/-- Keep the lines of one file whose class is in the accepted set;
error when any class fails to parse. -/
def filterFile (classes : List Int) (lines : List Bed6) : Except Unit (List Bed6) :=
  match lines with
  | [] => Except.ok []
  | l :: ls =>
    match classOf l.name with
    | none => Except.error ()
    | some c =>
      (filterFile classes ls).map (fun rest => if c ∈ classes then l :: rest else rest)

/-- Insert a binding into an association list, replacing an existing
binding of the same key: the Python dict assignment tmps[sample] = f. -/
def insertOverwrite (k : String) (v : List Bed6) :
    List (String × List Bed6) → List (String × List Bed6)
  | [] => [(k, v)]
  | (k', v') :: rest =>
    if k' = k then (k, v) :: rest else (k', v') :: insertOverwrite k v rest

/-- filter_peaks of the source: build the sample-id keyed map of
filtered peak files.  Files are pairs of a path and the parsed lines
of the file. -/
def filter_peaks (files : List (String × List Bed6)) (classes : List Int) :
    Except Unit (List (String × List Bed6)) :=
  files.foldlM
    (fun m f => (filterFile classes f.2).map (fun fc => insertOverwrite (sampleId f.1) fc m))
    []

/-- Modelled from the argparse declaration of the source: the classes
option uses action append with the mutable default list [1], so every
supplied code is appended to the default and the parsed value is the
default list followed by the supplied codes. -/
def acceptedClasses (supplied : List Int) : List Int :=
  1 :: supplied

/-- The last input file whose name derives a given sample id, the
file whose filtered peaks win the silent dict overwrite. -/
def lastFileWith (sid : String) : List (String × List Bed6) → Option (String × List Bed6)
  | [] => none
  | f :: fs =>
    match lastFileWith sid fs with
    | some g => some g
    | none => if sampleId f.1 = sid then some f else none

/- ------------------------------------------------------------------
Interval engine, coverage operation.  Modelled from the spec:
multi_coverage (bedtools multiinter) is an external collaborator and
is specified in section 6 as emitting one row per maximal
constant-coverage span, num being the count of distinct covering
samples.  It is computed here by a position scan per chromosome.
------------------------------------------------------------------- -/

/-- Does some interval of this sample cover position x of
chromosome c (intervals are half open)? -/
def coversPos (peaks : List Bed6) (c : String) (x : Nat) : Bool :=
  peaks.any (fun p => p.chrom = c ∧ p.start ≤ x ∧ x < p.stop)

/-- Number of distinct samples with a peak covering position x of
chromosome c. -/
def covCount (samples : List (List Bed6)) (c : String) (x : Nat) : Nat :=
  (samples.filter (fun peaks => coversPos peaks c x)).length

/-- Group a list of consecutive positions paired with their coverage
values into maximal constant runs, carried as (start, stop, value)
with stop exclusive. -/
def groupRunsAux (s e v : Nat) : List (Nat × Nat) → List (Nat × Nat × Nat)
  | [] => [(s, e + 1, v)]
  | (x, w) :: rest =>
    if w = v then groupRunsAux s x v rest
    else (s, e + 1, v) :: groupRunsAux x x w rest

/-- Runs of equal value over a position list. -/
def groupRuns : List (Nat × Nat) → List (Nat × Nat × Nat)
  | [] => []
  | (x, v) :: rest => groupRunsAux x x v rest

/-- Largest stop coordinate any sample reaches on chromosome c. -/
def chromEnd (samples : List (List Bed6)) (c : String) : Nat :=
  samples.foldl (fun acc peaks =>
    peaks.foldl (fun a p => if p.chrom = c then max a p.stop else a) acc) 0

/-- Chromosomes of the input in first-appearance order, without
repetitions. -/
def chromListAux (seen : List String) : List String → List String
  | [] => []
  | c :: cs =>
    if c ∈ seen then chromListAux seen cs
    else c :: chromListAux (c :: seen) cs

/-- Chromosome names occurring in any sample. -/
def chromsOf (samples : List (List Bed6)) : List String :=
  chromListAux [] (samples.flatMap (fun peaks => peaks.map Bed6.chrom))

/-- Modelled from the spec: the coverage rows the multi-sample
interval engine reports for one chromosome, one row per maximal span
of constant positive distinct-sample coverage. -/
def covRowsChrom (samples : List (List Bed6)) (c : String) : List CovRow :=
  ((groupRuns ((List.range (chromEnd samples c)).map
      (fun x => (x, covCount samples c x)))).filter
    (fun r => r.2.2 ≠ 0)).map
    (fun r => ⟨c, r.1, r.2.1, r.2.2⟩)

/-- Modelled from the spec: all coverage rows, chromosome by
chromosome. -/
def covRows (samples : List (List Bed6)) : List CovRow :=
  (chromsOf samples).flatMap (covRowsChrom samples)

/- ------------------------------------------------------------------
ConsensusBuilder: the first half of multi_intersect of the source.
Coverage rows below the cutoff are skipped, the survivors are gap
merged by the engine (bedtools merge -d 2), and the merged regions
are written with sequential names peak_0, peak_1, ...
------------------------------------------------------------------- -/

/-- The loop over coverage rows in multi_intersect: a row with
num < cutoff is skipped, the rest keep their coordinates. -/
def clusterFilter (rows : List CovRow) (cutoff : Nat) : List CovRow :=
  rows.filter (fun r => ¬ r.num < cutoff)

/-- Span of a coverage row. -/
def covIv (r : CovRow) : Iv :=
  ⟨r.chrom, r.start, r.stop⟩

/-- Modelled from the spec: the gap-merge engine operation (bedtools
merge -d 2) on a sorted interval list.  The current region absorbs
the next interval when it is on the same chromosome and starts at
most two bases after the current stop, extending the stop to the
maximum. -/
def mergeGo (cur : Iv) : List Iv → List Iv
  | [] => [cur]
  | iv :: rest =>
    if iv.chrom = cur.chrom ∧ iv.start ≤ cur.stop + 2 then
      mergeGo ⟨cur.chrom, cur.start, max cur.stop iv.stop⟩ rest
    else cur :: mergeGo iv rest

/-- Gap merge with tolerance two over a whole list. -/
def mergeGap : List Iv → List Iv
  | [] => []
  | iv :: rest => mergeGo iv rest

/-- The consensus regions built from coverage rows: filter by cutoff,
gap merge, and name the i-th merged region peak_i in scan order. -/
def regionsFromRows (rows : List CovRow) (cutoff : Nat) : List Bed4 :=
  (mergeGap ((clusterFilter rows cutoff).map covIv)).enum.map
    (fun p => ⟨p.2.chrom, p.2.start, p.2.stop, "peak_" ++ natToStr p.1⟩)

/- ------------------------------------------------------------------
ConsensusAnnotator: the second half of multi_intersect together with
map_peak_class and AnnotatedPeak of the source.
------------------------------------------------------------------- -/

/-- Do a working-set row and a sample peak overlap (same chromosome,
at least one shared position)? -/
def rowOverlaps (r : WorkRow) (p : Bed6) : Bool :=
  p.chrom = r.chrom ∧ r.start < p.stop ∧ p.start < r.stop

/-- Comma-joined names of the sample peaks overlapping a region, or a
dot when none does: the collapsed column bedtools map appends. -/
def collapseNames (r : WorkRow) (sample : List Bed6) : String :=
  match (sample.filter (fun p => rowOverlaps r p)).map Bed6.name with
  | [] => "."
  | n :: ns => ns.foldl (fun acc m => acc ++ "," ++ m) n

/-- Modelled from the spec: the overlap-aggregate engine operation
(bedtools map -c 4 -o collapse).  For each working row the collapsed
overlapping names are appended as one more column; when no overlap
exists anywhere between the working set and the sample, nothing at
all is emitted, the documented engine quirk. -/
def overlapAggregate (working : List WorkRow) (sample : List Bed6) : List WorkRow :=
  if working.all (fun r => sample.all (fun p => ¬ rowOverlaps r p)) then []
  else working.map (fun r => { r with votes := r.votes ++ [collapseNames r sample] })

/-- map_peak_class of the source: run the overlap aggregation; when
its output file is empty keep the previous working set, otherwise
replace it with the fresh output. -/
def map_peak_class (sample : List Bed6) (working : List WorkRow) : List WorkRow :=
  let out := overlapAggregate working sample
  if out.length < 1 then working else out

/-- A consensus region as a working row with no vote columns yet. -/
def toWorkRow (b : Bed4) : WorkRow :=
  ⟨b.chrom, b.start, b.stop, b.name, []⟩

/-- The observed classification votes of a working row: every vote
column that is not a dot contributes the text after its last colon,
as collected in AnnotatedPeak.__init__. -/
def observedVotes (cols : List String) : List String :=
  (cols.filter (fun v => v ≠ ".")).map afterLastColon

/-- Iteration order of a CPython 2 set holding classification labels.
The source computes max(set(observed), key=observed.count); a small
CPython set iterates its hash table slots in ascending order, and the
slots of the one-character strings 1, 2, 3, 4 under the CPython
string hash are 0, 3, 2, 5 respectively, so any subset of these four
labels iterates in the fixed order 1, 3, 2, 4 independent of
insertion order.  The embedding is faithful for vote values drawn
from these four labels, the classification codes of this pipeline. -/
def pySetOrder : List String := ["1", "3", "2", "4"]

/-- The members of the vote set in CPython iteration order. -/
def pySetList (obs : List String) : List String :=
  pySetOrder.filter (fun c => c ∈ obs)

/-- The Python max builtin with a key function: the first candidate
whose key is not exceeded by any later candidate, none on an empty
candidate list (where the source raises ValueError). -/
def pyMax (cands : List String) (obs : List String) : Option String :=
  cands.foldl
    (fun acc c =>
      match acc with
      | none => some c
      | some b => if obs.count b < obs.count c then some c else some b)
    none

/-- The resolved classification of a vote list: the source expression
max(set(observed), key=observed.count). -/
def resolvedClass (obs : List String) : Option String :=
  pyMax (pySetList obs) obs

/-- The annotated name AnnotatedPeak.__init__ produces for a working
row, appending the resolved class after a colon; none models the
ValueError raised by max() when the row has no votes. -/
def annotatedName (r : WorkRow) : Option String :=
  (resolvedClass (observedVotes r.votes)).map (fun c => r.name ++ ":" ++ c)

/-- The final loop of multi_intersect: each working row is turned
into an AnnotatedPeak and written; a row that raises during
construction aborts the run with no output. -/
def annotateAll : List WorkRow → Except Unit (List Bed4)
  | [] => Except.ok []
  | r :: rs =>
    match annotatedName r with
    | none => Except.error ()
    | some nm => (annotateAll rs).map (fun rest => ⟨r.chrom, r.start, r.stop, nm⟩ :: rest)

/-- multi_intersect of the source: build consensus regions from the
filtered per-sample files, then fold the overlay annotation over the
original files in order, then resolve each region. -/
def multi_intersect (slopfiles : List (List Bed6)) (origfiles : List (List Bed6))
    (cutoff : Nat) : Except Unit (List Bed4) :=
  let regions := regionsFromRows (covRows slopfiles) cutoff
  let annotated := origfiles.foldl (fun w s => map_peak_class s w) (regions.map toWorkRow)
  annotateAll annotated

/- ------------------------------------------------------------------
GeneAssigner: intersect of the source.  The annotated regions are
overlap-joined against the exon reference, the rows are sorted by
chromosome, gene and start (with the full text line as the last
resort comparison of the sort tool), grouped by gene, deduplicated by
the peak name, and numbered strand-aware.
------------------------------------------------------------------- -/

/-- One row of the output of bedtools intersect -wb: the overlapping
portion of the region (a side) followed by the full exon record
(b side). -/
structure IRow where
  chrom : String
  start : Nat
  stop : Nat
  peak : String
  chrom2 : String
  start2 : Nat
  stop2 : Nat
  gene : String
  score2 : String
  strand : String
deriving DecidableEq, Repr

/-- Modelled from the spec: the overlap-join engine operation
(bedtools intersect -wb), one row per overlapping region/exon pair in
region-major order, the region coordinates clipped to the overlap. -/
def intersectJoin (peaks : List Bed4) (exons : List Bed6) : List IRow :=
  peaks.flatMap (fun p =>
    ((exons.filter (fun e => e.chrom = p.chrom ∧ p.start < e.stop ∧ e.start < p.stop)).map
      (fun e => ⟨p.chrom, max p.start e.start, min p.stop e.stop, p.name,
                 e.chrom, e.start, e.stop, e.name, e.score, e.strand⟩)))

/-- Character codes of a string, the byte view the sort tool
compares. -/
def charCodes (s : String) : List Nat :=
  s.toList.map Char.toNat

/-- The rendered text of an intersect output row, the tab-joined
fields the sort tool sees. -/
def rowLine (r : IRow) : String :=
  r.chrom ++ "\t" ++ natToStr r.start ++ "\t" ++ natToStr r.stop ++ "\t" ++ r.peak
    ++ "\t" ++ r.chrom2 ++ "\t" ++ natToStr r.start2 ++ "\t" ++ natToStr r.stop2
    ++ "\t" ++ r.gene ++ "\t" ++ r.score2 ++ "\t" ++ r.strand

/-- The sort key of the command sort -k1,1 -k8,8 -k2,2n: chromosome
text, then gene text, then numeric start, with the whole line as the
last-resort comparison. -/
def rowKey (r : IRow) : Lex (List Nat × Lex (List Nat × Lex (Nat × List Nat))) :=
  toLex (charCodes r.chrom, toLex (charCodes r.gene, toLex (r.start, charCodes (rowLine r))))

/-- Boolean comparison of two rows under the sort key. -/
def rowLe (a b : IRow) : Bool :=
  decide (rowKey a ≤ rowKey b)

/-- The ordering proposition of the sort comparison. -/
def rowLeP (a b : IRow) : Prop :=
  rowLe a b = true

/-- Insertion of a row into a sorted list. -/
def insertRow (x : IRow) : List IRow → List IRow
  | [] => [x]
  | y :: ys => if rowLe x y then x :: y :: ys else y :: insertRow x ys

/-- Sorting of the intersect output, the sort invocation of the
source. -/
def sortRows : List IRow → List IRow
  | [] => []
  | x :: xs => insertRow x (sortRows xs)

/-- Maximal runs of consecutive elements related by the adjacency
test, the itertools groupby pattern of the source (and the chunk
structure of gap merging). -/
def chunksBy {α : Type} (adj : α → α → Bool) : List α → List (List α)
  | [] => []
  | x :: xs =>
    match chunksBy adj xs with
    | (y :: ys) :: rest =>
      if adj x y then (x :: y :: ys) :: rest else [x] :: (y :: ys) :: rest
    | _ => [[x]]

/-- grouper of the source: groupby on the gene field. -/
def geneRuns (rows : List IRow) : List (List IRow) :=
  chunksBy (fun a b => a.gene = b.gene) rows

/-- unique_everseen of the source, keyed by the peak field: keep the
first row carrying each peak name. -/
def dedupByPeak (seen : List String) : List IRow → List IRow
  | [] => []
  | r :: rs =>
    if r.peak ∈ seen then dedupByPeak seen rs
    else r :: dedupByPeak (r.peak :: seen) rs

/-- A final record of the pipeline, keeping the source row fields the
rendered name is built from together with the assigned ordinal. -/
structure OutRec where
  chrom : String
  start : Nat
  stop : Nat
  peak : String
  gene : String
  strand : String
  ordinal : Nat
deriving DecidableEq, Repr

/-- get_out of the source applied to a row and an ordinal. -/
def getOutRec (l : IRow) (n : Nat) : OutRec :=
  ⟨l.chrom, l.start, l.stop, l.peak, l.gene, l.strand, n⟩

/-- The rendered output line of a record: chrom, start, stop, the
name p.c<class>.<gene>.<ordinal>, the literal score 0 and the
strand. -/
def renderOut (r : OutRec) : List String :=
  [r.chrom, natToStr r.start, natToStr r.stop,
   "p.c" ++ afterLastColon r.peak ++ "." ++ r.gene ++ "." ++ natToStr r.ordinal,
   "0", r.strand]

/-- The body of the per-gene loop of intersect: deduplicate the group
by peak name, print every non-negative-strand row with its one-based
position among all deduplicated rows as ordinal, collect the
negative-strand rows, then print those numbered downward from their
count. -/
def processGroup (g : List IRow) : List OutRec :=
  ((dedupByPeak [] g).enum.filter (fun p => p.2.strand ≠ "-")).map
      (fun p => getOutRec p.2 (p.1 + 1))
    ++ ((dedupByPeak [] g).filter (fun l => l.strand = "-")).enum.map
      (fun p => getOutRec p.2
        (((dedupByPeak [] g).filter (fun l => l.strand = "-")).length - p.1))

/-- intersect of the source as a record stream: join, sort, group by
gene, and process each group. -/
def intersectRecords (exons : List Bed6) (peaks : List Bed4) : List OutRec :=
  (geneRuns (sortRows (intersectJoin peaks exons))).flatMap processGroup

/- ------------------------------------------------------------------
main of the source: classify, build and annotate the consensus, and
assign genes.  No further step follows gene assignment.
------------------------------------------------------------------- -/

/-- main of the source.  The supplied classification codes are the -c
arguments; argparse prepends the default class 1 (acceptedClasses).
The filtered files feed consensus building while the original files
feed the annotation pass, and the gene assignment output is the final
output of the program. -/
def mainRun (exons : List Bed6) (files : List (String × List Bed6))
    (supplied : List Int) (cutoff : Nat) : Except Unit (List OutRec) :=
  match filter_peaks files (acceptedClasses supplied) with
  | Except.error e => Except.error e
  | Except.ok tmps =>
    match multi_intersect (tmps.map Prod.snd) (files.map Prod.snd) cutoff with
    | Except.error e => Except.error e
    | Except.ok peakRegions => Except.ok (intersectRecords exons peakRegions)

/- ------------------------------------------------------------------
Definitions that follow the words of the spec rather than the source,
used to state refinement and correction theorems: the missing
OutputFilter, the insertion-order tie break, and the chunk view of
gap merging.
------------------------------------------------------------------- -/

/-- Follows the words of the spec, section 4.5: the OutputFilter
retains only records whose resolved class, the text after the last
colon of the synthetic name, parses to a member of the accepted
class set. -/
def outputFilterSpec (accepted : List Int) (rs : List OutRec) : List OutRec :=
  rs.filter (fun r =>
    match parseInt (afterLastColon r.peak) with
    | some c => c ∈ accepted
    | none => false)

/-- First occurrence of each value in insertion order. -/
def firstSeen (seen : List String) : List String → List String
  | [] => []
  | x :: xs =>
    if x ∈ seen then firstSeen seen xs
    else x :: firstSeen (x :: seen) xs

/-- Follows the words of the spec: the vote occurring most often,
ties broken by the first value reaching the maximum count under
insertion order of the votes. -/
def specInsertionResolve (obs : List String) : Option String :=
  pyMax (firstSeen [] obs) obs

/-- Adjacency of two intervals for the spec description of merging:
same chromosome and a gap of at most two base pairs. -/
def specAdj (a b : Iv) : Bool :=
  a.chrom = b.chrom ∧ b.start ≤ a.stop + 2

/-- Largest stop coordinate in an interval chunk, at least the given
accumulator. -/
def maxStop (acc : Nat) : List Iv → Nat
  | [] => acc
  | iv :: rest => maxStop (max acc iv.stop) rest

/-- Span of a chunk of intervals: the chromosome and start of its
first element and the largest stop. -/
def chunkSpan : List Iv → Iv
  | [] => ⟨"", 0, 0⟩
  | iv :: rest => ⟨iv.chrom, iv.start, maxStop iv.stop rest⟩

/-- Follows the words of the spec, section 4.2 step 3: merge adjacent
surviving clusters whose gap is at most two base pairs into a single
region taking the union of their span. -/
def specMerge (l : List Iv) : List Iv :=
  (chunksBy specAdj l).map chunkSpan

/- ------------------------------------------------------------------
Concrete inputs used by counterexamples and witnesses.
------------------------------------------------------------------- -/

/-- Two samples, each holding a class 1 peak and a class 2 peak on
the same interval.  The class 1 peaks build the consensus; the class
2 peaks outvote them during annotation. -/
def c1Files : List (String × List Bed6) :=
  [("s1.bed", [⟨"chr1", 100, 110, "a:1", "0", "+"⟩, ⟨"chr1", 100, 110, "b:2", "0", "+"⟩]),
   ("s2.bed", [⟨"chr1", 100, 110, "c:1", "0", "+"⟩, ⟨"chr1", 100, 110, "d:2", "0", "+"⟩])]

/-- A single gene covering the consensus interval. -/
def c1Exons : List Bed6 := [⟨"chr1", 0, 200, "GENE1", "0", "+"⟩]

/-- The record the pipeline emits on c1Files: resolved class 2. -/
def c1Out : List OutRec := [⟨"chr1", 100, 110, "peak_0:2", "GENE1", "+", 1⟩]

/-- Two input files whose basenames derive the same sample id a. -/
def c5Files : List (String × List Bed6) :=
  [("a.bed", [⟨"chr1", 0, 10, "x:1", "0", "+"⟩]),
   ("a_x.bed", [⟨"chr1", 0, 10, "y:1", "0", "+"⟩])]

/-- A gene covering the c5 interval. -/
def c5Exons : List Bed6 := [⟨"chr1", 0, 20, "G", "0", "+"⟩]

/-- Three samples whose coverage has a one-sample hole between two
two-sample clusters: raising the cutoff from 1 to 2 removes the
middle cluster, and the gap of ten bases then splits the single
merged region in two. -/
def c7Samples : List (List Bed6) :=
  [[⟨"chr1", 0, 20, "a:1", "0", "+"⟩],
   [⟨"chr1", 0, 10, "b:1", "0", "+"⟩, ⟨"chr1", 20, 30, "c:1", "0", "+"⟩],
   [⟨"chr1", 20, 30, "d:1", "0", "+"⟩]]

/-- A working set holding a region with no overlapping votes (a
single dot column) followed by an ordinary annotated region. -/
def c4Rows : List WorkRow :=
  [⟨"chr1", 100, 110, "peak_0", ["."]⟩, ⟨"chr1", 200, 210, "peak_1", ["x:1"]⟩]

/-- A gene group whose negative-strand row precedes its
positive-strand row in sort order. -/
def c2Group : List IRow :=
  [⟨"chr1", 100, 110, "peak_0:1", "chr1", 0, 400, "G", "0", "-"⟩,
   ⟨"chr1", 200, 210, "peak_1:1", "chr1", 0, 400, "G", "0", "+"⟩]

/-- A gene group whose positive-strand rows precede its
negative-strand rows. -/
def c2GroupOrdered : List IRow :=
  [⟨"chr1", 100, 110, "peak_0:1", "chr1", 0, 400, "G", "0", "+"⟩,
   ⟨"chr1", 200, 210, "peak_1:1", "chr1", 0, 400, "G", "0", "+"⟩,
   ⟨"chr1", 300, 310, "peak_2:1", "chr1", 0, 400, "G", "0", "-"⟩]

/-- Coverage rows used to witness the consensus builder theorem. -/
def c8Rows : List CovRow :=
  [⟨"chr1", 0, 10, 2⟩, ⟨"chr1", 11, 20, 1⟩, ⟨"chr1", 30, 40, 3⟩]

/-- Small working set and sample with an overlap, for the annotation
step witness. -/
def c6Working : List WorkRow := [⟨"chr1", 0, 10, "peak_0", []⟩]

/-- A sample overlapping c6Working. -/
def c6Sample : List Bed6 := [⟨"chr1", 5, 15, "x:1", "0", "+"⟩]

/-- A sample not overlapping c6Working. -/
def c6Far : List Bed6 := [⟨"chr1", 50, 60, "y:1", "0", "+"⟩]

/-- Peaks list used to witness the gene assignment theorems. -/
def c9Peaks : List Bed4 :=
  [⟨"chr1", 100, 110, "peak_0:1"⟩, ⟨"chr1", 300, 310, "peak_1:2"⟩]

/-- Exons list used to witness the gene assignment theorems: peak_0
overlaps both genes, peak_1 only the second. -/
def c9Exons : List Bed6 :=
  [⟨"chr1", 0, 200, "GA", "0", "+"⟩, ⟨"chr1", 50, 400, "GB", "0", "-"⟩]

/- ==================================================================
Theorems.
================================================================== -/

/-- Helper: an Except map yielding ok factors through an ok. -/
theorem exceptMap_ok {α β : Type} {e : Except Unit α} {f : α → β} {b : β}
    (h : e.map f = Except.ok b) : ∃ a, e = Except.ok a ∧ b = f a := by
  cases e with
  | error u => simp [Except.map] at h
  | ok a => exact ⟨a, rfl, by simpa [Except.map] using h.symm⟩

/-- Helper: a peak whose class is accepted survives filterFile. -/
theorem filterFile_mem {classes : List Int} {lines out : List Bed6} {p : Bed6} {c : Int}
    (h : filterFile classes lines = Except.ok out)
    (hp : p ∈ lines) (hc : classOf p.name = some c) (hacc : c ∈ classes) : p ∈ out := by
  induction lines generalizing out with
  | nil => cases hp
  | cons l ls ih =>
    rw [filterFile] at h
    rcases hmatch : classOf l.name with _ | c'
    · rw [hmatch] at h; cases h
    · rw [hmatch] at h
      obtain ⟨rest, hrest, hout⟩ := exceptMap_ok h
      rcases List.mem_cons.mp hp with rfl | hmem
      · rw [hmatch] at hc
        cases hc
        subst hout
        simp [hacc]
      · have := ih hrest hmem
        subst hout
        by_cases hcc : c' ∈ classes <;> simp [hcc, this]

/-- C10: argparse appends every supplied -c code to the mutable
default list [1], so the accepted class set contains class 1 and all
supplied codes, and a class 1 peak always survives the
classification filter. -/
theorem c10_default_class_retained (supplied : List Int) (lines out : List Bed6) (p : Bed6) :
    (1 ∈ acceptedClasses supplied ∧ ∀ c ∈ supplied, c ∈ acceptedClasses supplied)
    ∧ (filterFile (acceptedClasses supplied) lines = Except.ok out →
        p ∈ lines → classOf p.name = some 1 → p ∈ out) := by
  refine ⟨⟨List.mem_cons_self 1 supplied, fun c hc => List.mem_cons_of_mem 1 hc⟩, ?_⟩
  intro h hp hc
  exact filterFile_mem h hp hc (List.mem_cons_self 1 supplied)

/-- Witness for C10 at a concrete input. -/
theorem c10_default_class_retained_witness :
    filterFile (acceptedClasses [2]) [⟨"chr1", 0, 10, "x:1", "0", "+"⟩]
      = Except.ok [⟨"chr1", 0, 10, "x:1", "0", "+"⟩]
    ∧ (⟨"chr1", 0, 10, "x:1", "0", "+"⟩ : Bed6)
        ∈ [(⟨"chr1", 0, 10, "x:1", "0", "+"⟩ : Bed6)] := by
  refine ⟨rfl, ?_⟩
  exact (c10_default_class_retained [2] [⟨"chr1", 0, 10, "x:1", "0", "+"⟩]
    [⟨"chr1", 0, 10, "x:1", "0", "+"⟩] ⟨"chr1", 0, 10, "x:1", "0", "+"⟩).2
    rfl (by decide) (by decide)

/-- C6: one step of the iterative overlay annotation.  When no row of
the working set overlaps any peak of the sample, the engine emits
nothing and map_peak_class keeps the previous working set unchanged;
when some overlap exists, the working set is replaced by the freshly
annotated output of the overlap aggregation. -/
theorem c6_overlay_step (working : List WorkRow) (sample : List Bed6) :
    ((∀ r ∈ working, ∀ p ∈ sample, ¬ rowOverlaps r p) →
      map_peak_class sample working = working)
    ∧ ((∃ r ∈ working, ∃ p ∈ sample, rowOverlaps r p) →
      map_peak_class sample working = overlapAggregate working sample) := by
  constructor
  · intro h
    have hall : working.all (fun r => sample.all (fun p => ¬ rowOverlaps r p)) = true := by
      simp only [List.all_eq_true, decide_eq_true_eq]
      intro r hr p hp
      simpa using h r hr p hp
    have hempty : overlapAggregate working sample = [] := by
      rw [overlapAggregate, if_pos hall]
    simp [map_peak_class, hempty]
  · rintro ⟨r, hr, p, hp, hov⟩
    have hall : working.all (fun r => sample.all (fun p => ¬ rowOverlaps r p)) ≠ true := by
      intro hcontra
      rw [List.all_eq_true] at hcontra
      have h2 := hcontra r hr
      rw [List.all_eq_true] at h2
      have h3 := h2 p hp
      simp only [decide_eq_true_eq] at h3
      exact h3 hov
    rw [map_peak_class]
    have hlen : (overlapAggregate working sample).length = working.length := by
      rw [overlapAggregate, if_neg hall, List.length_map]
    have hne : working ≠ [] := by
      intro h; subst h; cases hr
    have : ¬ (overlapAggregate working sample).length < 1 := by
      rw [hlen]
      have := List.length_pos.mpr hne
      omega
    rw [if_neg this]

/-- Witness for C6: an overlapping sample replaces the working set,
a far away sample leaves it unchanged. -/
theorem c6_overlay_step_witness :
    map_peak_class c6Far c6Working = c6Working
    ∧ map_peak_class c6Sample c6Working = overlapAggregate c6Working c6Sample := by
  constructor
  · exact (c6_overlay_step c6Working c6Far).1 (by decide)
  · exact (c6_overlay_step c6Working c6Sample).2
      ⟨⟨"chr1", 0, 10, "peak_0", []⟩, by decide, ⟨"chr1", 5, 15, "x:1", "0", "+"⟩,
        by decide, by decide⟩

/-- C7 counterexample: on c7Samples the consensus builder produces
one region at cutoff 1 but two regions at cutoff 2, so raising the
cutoff increases the number of consensus regions. -/
theorem c7_counterexample :
    (1 : Nat) ≤ 2
    ∧ (regionsFromRows (covRows c7Samples) 1).length = 1
    ∧ (regionsFromRows (covRows c7Samples) 2).length = 2 := by
  refine ⟨by decide, rfl, rfl⟩

/-- C7 amended: raising the cutoff never increases the number of
surviving coverage clusters entering the gap merge; only after
merging can the count grow, as the counterexample shows. -/
theorem c7_amended (rows : List CovRow) (c1 c2 : Nat) (h : c1 ≤ c2) :
    (clusterFilter rows c2).length ≤ (clusterFilter rows c1).length := by
  have heq : clusterFilter rows c2
      = (clusterFilter rows c1).filter (fun r => ¬ r.num < c2) := by
    rw [clusterFilter, clusterFilter, List.filter_filter]
    apply List.filter_congr
    intro r _
    by_cases h2 : r.num < c2
    · by_cases h1 : r.num < c1 <;> simp [h1, h2]
    · have h1 : ¬ r.num < c1 := by omega
      simp [h1, h2]
  rw [heq]
  exact List.length_filter_le _ _

/-- Witness for C7 amended at concrete rows and cutoffs. -/
theorem c7_amended_witness :
    (clusterFilter c8Rows 3).length ≤ (clusterFilter c8Rows 1).length :=
  c7_amended c8Rows 1 3 (by decide)

/-- C4: a working-set region whose vote columns are all dots makes
AnnotatedPeak call max() on an empty set, raising ValueError and
aborting the run with no output, instead of being dropped while the
other regions are emitted. -/
theorem c4_zero_vote_region_raises :
    annotateAll c4Rows = Except.error ()
    ∧ annotatedName ⟨"chr1", 100, 110, "peak_0", ["."]⟩ = none
    ∧ annotatedName ⟨"chr1", 200, 210, "peak_1", ["x:1"]⟩ = some "peak_1:1" := by
  exact ⟨rfl, rfl, rfl⟩

/-- Helper: looking up the inserted key finds the new value. -/
theorem lookup_insertOverwrite_self (m : List (String × List Bed6)) (k : String)
    (v : List Bed6) : (insertOverwrite k v m).lookup k = some v := by
  induction m with
  | nil => simp [insertOverwrite, List.lookup]
  | cons e rest ih =>
    by_cases h : e.1 = k
    · simp [insertOverwrite, h, List.lookup]
    · have hb : (k == e.1) = false := beq_eq_false_iff_ne.mpr (fun hc => h hc.symm)
      simp only [insertOverwrite, if_neg h, List.lookup, hb]
      exact ih

/-- Helper: looking up a different key is unchanged by insertion. -/
theorem lookup_insertOverwrite_ne (m : List (String × List Bed6)) (k k' : String)
    (v : List Bed6) (h : k' ≠ k) :
    (insertOverwrite k v m).lookup k' = m.lookup k' := by
  induction m with
  | nil => simp [insertOverwrite, List.lookup, beq_eq_false_iff_ne.mpr h]
  | cons e rest ih =>
    by_cases he : e.1 = k
    · have hb : (k' == k) = false := beq_eq_false_iff_ne.mpr h
      have hb2 : (k' == e.1) = false := beq_eq_false_iff_ne.mpr (he ▸ h)
      simp only [insertOverwrite, if_pos he, List.lookup, hb, hb2]
    · by_cases hk : k' = e.1
      · have hb : (k' == e.1) = true := beq_iff_eq.mpr hk
        simp only [insertOverwrite, if_neg he, List.lookup, hb]
      · have hb : (k' == e.1) = false := beq_eq_false_iff_ne.mpr hk
        simp only [insertOverwrite, if_neg he, List.lookup, hb]
        exact ih

/-- Helper: the sample map built by filter_peaks binds each sample id
to the filtered content of the last file deriving that id. -/
theorem filter_peaks_lookup_go (classes : List Int) (sid : String) :
    ∀ (files : List (String × List Bed6)) (m0 m : List (String × List Bed6)),
    List.foldlM
      (fun m f => (filterFile classes f.2).map (fun fc => insertOverwrite (sampleId f.1) fc m))
      m0 files = Except.ok m →
    (match lastFileWith sid files with
     | some f => ∃ fc, filterFile classes f.2 = Except.ok fc ∧ m.lookup sid = some fc
     | none => m.lookup sid = m0.lookup sid) := by
  intro files
  induction files with
  | nil =>
    intro m0 m h
    simp only [List.foldlM_nil] at h
    cases h
    simp [lastFileWith]
  | cons f fs ih =>
    intro m0 m h
    rw [List.foldlM_cons] at h
    rcases hff : filterFile classes f.2 with _ | fc0
    · rw [hff] at h
      simp [Except.map, Bind.bind, Except.bind] at h
    · rw [hff] at h
      simp only [Except.map, Bind.bind, Except.bind] at h
      have hrec := ih (insertOverwrite (sampleId f.1) fc0 m0) m h
      rcases hl : lastFileWith sid fs with _ | g
      · rw [hl] at hrec
        simp only [lastFileWith, hl]
        by_cases hs : sampleId f.1 = sid
        · rw [if_pos hs]
          refine ⟨fc0, hff, ?_⟩
          rw [hrec, hs, lookup_insertOverwrite_self]
        · rw [if_neg hs]
          rw [hrec, lookup_insertOverwrite_ne _ _ _ _ (fun hc => hs hc.symm)]
      · rw [hl] at hrec
        simpa only [lastFileWith, hl] using hrec

/-- C5 counterexample: two files deriving the same sample id a do not
stop the run; the second silently replaces the first in the sample
map and the pipeline completes with output. -/
theorem c5_counterexample :
    sampleId "a.bed" = sampleId "a_x.bed"
    ∧ filter_peaks c5Files (acceptedClasses [])
        = Except.ok [("a", [⟨"chr1", 0, 10, "y:1", "0", "+"⟩])]
    ∧ mainRun c5Exons c5Files [] 1
        = Except.ok [⟨"chr1", 0, 10, "peak_0:1", "G", "+", 1⟩] :=
  ⟨by decide, rfl, rfl⟩

/-- C5 amended: duplicate sample ids are not detected; the sample map
binds each id to the filtered peaks of the last file deriving it, the
earlier duplicates being silently replaced, and the run proceeds. -/
theorem c5_amended (files : List (String × List Bed6)) (classes : List Int)
    (m : List (String × List Bed6)) (sid : String) (f : String × List Bed6)
    (h1 : filter_peaks files classes = Except.ok m)
    (h2 : lastFileWith sid files = some f) :
    ∃ fc, filterFile classes f.2 = Except.ok fc ∧ m.lookup sid = some fc := by
  have := filter_peaks_lookup_go classes sid files [] m h1
  rw [h2] at this
  exact this

/-- Witness for C5 amended on the duplicate-id input. -/
theorem c5_amended_witness :
    ∃ fc, filterFile (acceptedClasses []) [⟨"chr1", 0, 10, "y:1", "0", "+"⟩]
        = Except.ok fc
      ∧ List.lookup "a" [("a", [(⟨"chr1", 0, 10, "y:1", "0", "+"⟩ : Bed6)])] = some fc :=
  c5_amended c5Files (acceptedClasses []) [("a", [⟨"chr1", 0, 10, "y:1", "0", "+"⟩])]
    "a" ("a_x.bed", [⟨"chr1", 0, 10, "y:1", "0", "+"⟩]) rfl rfl

/-- Helper: the max fold depends on the observation list only through
its counts. -/
theorem pyMax_count_congr (v1 v2 : List String)
    (hcnt : ∀ s, v1.count s = v2.count s) :
    ∀ (l : List String), pyMax l v1 = pyMax l v2 := by
  have hfun : (fun (acc : Option String) (c : String) => match acc with
      | none => some c
      | some b => if v1.count b < v1.count c then some c else some b)
    = (fun (acc : Option String) (c : String) => match acc with
      | none => some c
      | some b => if v2.count b < v2.count c then some c else some b) := by
    funext acc c
    cases acc with
    | none => rfl
    | some b =>
      show (if v1.count b < v1.count c then some c else some b)
        = (if v2.count b < v2.count c then some c else some b)
      rw [hcnt b, hcnt c]
  intro l
  rw [pyMax, pyMax, hfun]

/-- Helper: the max fold returns a candidate whose count is maximal
among the candidates and at least the count of the accumulator. -/
theorem pyMax_is_max (obs : List String) :
    ∀ (l : List String) (acc : Option String) (r : String),
    l.foldl (fun acc c => match acc with
      | none => some c
      | some b => if obs.count b < obs.count c then some c else some b) acc = some r →
    (∀ b, acc = some b → obs.count b ≤ obs.count r)
    ∧ (∀ c ∈ l, obs.count c ≤ obs.count r) := by
  intro l
  induction l with
  | nil =>
    intro acc r h
    simp only [List.foldl_nil] at h
    refine ⟨fun b hb => ?_, fun c hc => absurd hc (List.not_mem_nil c)⟩
    rw [hb] at h
    cases h
    exact le_refl _
  | cons c cs ih =>
    intro acc r h
    simp only [List.foldl_cons] at h
    obtain ⟨hacc, hcs⟩ := ih _ r h
    have hstep : ∀ b, (match acc with
        | none => some c
        | some b => if obs.count b < obs.count c then some c else some b) = some b →
        obs.count b ≤ obs.count r := hacc
    have hc : obs.count c ≤ obs.count r := by
      cases acc with
      | none => exact hstep c rfl
      | some b =>
        by_cases hlt : obs.count b < obs.count c
        · refine hstep c ?_
          show (if obs.count b < obs.count c then some c else some b) = some c
          rw [if_pos hlt]
        · refine le_trans (le_of_not_lt hlt) (hstep b ?_)
          show (if obs.count b < obs.count c then some c else some b) = some b
          rw [if_neg hlt]
    refine ⟨fun b hb => ?_, fun x hx => ?_⟩
    · subst hb
      cases hacc2 : (match some b with
        | none => some c
        | some b => if obs.count b < obs.count c then some c else some b) with
      | none =>
        simp only at hacc2
        split at hacc2 <;> cases hacc2
      | some b' =>
        have hble : obs.count b ≤ obs.count b' := by
          simp only at hacc2
          split at hacc2 <;> rename_i hcond
          · cases hacc2; exact le_of_lt hcond
          · cases hacc2; exact le_refl _
        exact le_trans hble (hstep b' hacc2)
    · rcases List.mem_cons.mp hx with rfl | hx2
      · exact hc
      · exact hcs x hx2

/-- C3 counterexample: on the vote list with one vote for class 2
followed by one vote for class 3, the code resolves class 3 (the
CPython set iterates 3 before 2), while the first maximum under
insertion order of the votes is class 2. -/
theorem c3_counterexample :
    resolvedClass ["2", "3"] = some "3"
    ∧ specInsertionResolve ["2", "3"] = some "2"
    ∧ (some "3" : Option String) ≠ some "2" := by
  exact ⟨rfl, rfl, by decide⟩

/-- C3 amended: the resolved class is a vote of maximal count, with
ties broken by the first value reaching the maximum count under the
fixed CPython set iteration order of the class labels (1, 3, 2, 4),
not under insertion order of the votes; in particular two vote lists
with identical per-class counts resolve identically. -/
theorem c3_amended (v1 v2 : List String)
    (hsub : ∀ s ∈ v1, s ∈ pySetOrder)
    (hcnt : ∀ s, v1.count s = v2.count s) :
    resolvedClass v1 = resolvedClass v2
    ∧ (∀ r, resolvedClass v1 = some r → ∀ c ∈ v1, v1.count c ≤ v1.count r) := by
  constructor
  · have hmem : ∀ s, s ∈ v1 ↔ s ∈ v2 := by
      intro s
      rw [← List.count_pos_iff, ← List.count_pos_iff, hcnt s]
    have hset : pySetList v1 = pySetList v2 := by
      rw [pySetList, pySetList]
      apply List.filter_congr
      intro x _
      by_cases hx : x ∈ v1
      · simp [hx, (hmem x).mp hx]
      · have hx2 : x ∉ v2 := fun hc => hx ((hmem x).mpr hc)
        simp [hx, hx2]
    rw [resolvedClass, resolvedClass, hset]
    exact pyMax_count_congr v1 v2 hcnt _
  · intro r hr c hc
    have hcand : c ∈ pySetList v1 := by
      rw [pySetList, List.mem_filter]
      exact ⟨hsub c hc, by simpa using hc⟩
    exact (pyMax_is_max v1 (pySetList v1) none r hr).2 c hcand

/-- Witness for C3 amended: swapping the two tied votes leaves the
resolution unchanged, and the resolved class has maximal count. -/
theorem c3_amended_witness :
    resolvedClass ["2", "3"] = resolvedClass ["3", "2"]
    ∧ (∀ c ∈ (["2", "3"] : List String),
        List.count c ["2", "3"] ≤ List.count "3" ["2", "3"]) := by
  have h := c3_amended ["2", "3"] ["3", "2"] (by decide)
    (fun s => (List.Perm.swap "3" "2" []).count_eq s)
  exact ⟨h.1, h.2 "3" rfl⟩

/-- Helper: the second component of an enumerated entry is a member
of the underlying list. -/
theorem enumFrom_snd_mem {α : Type} :
    ∀ (l : List α) (k : Nat) (p : Nat × α), p ∈ List.enumFrom k l → p.2 ∈ l := by
  intro l
  induction l with
  | nil => intro k p hp; cases hp
  | cons x xs ih =>
    intro k p hp
    rw [List.enumFrom_cons] at hp
    rcases List.mem_cons.mp hp with rfl | hp2
    · exact List.mem_cons_self x xs
    · exact List.mem_cons_of_mem x (ih (k + 1) p hp2)

/-- Helper: mapping the countdown over a range reverses an ascending
range. -/
theorem rangeMapSub : ∀ (n k : Nat),
    (List.range n).map (fun j => k + n - j) = (List.range' (k + 1) n).reverse := by
  intro n
  induction n with
  | zero => intro k; rfl
  | succ n ih =>
    intro k
    rw [List.range_succ, List.map_append]
    have h1 : (fun j => k + (n + 1) - j) = (fun j => (k + 1) + n - j) := by
      funext j; omega
    rw [h1, ih (k + 1)]
    have h2 : List.range' (k + 1) (n + 1) = (k + 1) :: List.range' (k + 2) n := by
      rw [List.range'_succ]
    rw [h2, List.reverse_cons]
    have h3 : k + 1 + n - n = k + 1 := by omega
    simp only [List.map_cons, List.map_nil, h3]

/-- Helper: adding one to an ascending range from zero gives the
range from one. -/
theorem rangeMapAddOne : ∀ (n : Nat),
    (List.range n).map (fun j => j + 1) = List.range' 1 n := by
  intro n
  induction n with
  | zero => rfl
  | succ n ih =>
    rw [List.range_succ, List.map_append, ih, List.range'_concat]
    have h1 : 1 + 1 * n = n + 1 := by omega
    simp only [List.map_cons, List.map_nil, h1]

/-- C2 counterexample: in a gene group whose deduplicated rows are a
negative-strand row followed by a positive-strand row, the single
positive-strand row is emitted with ordinal 2, not with ordinal 1,
because the enumeration counts the interleaved negative-strand row. -/
theorem c2_counterexample :
    ((processGroup c2Group).filter (fun r => ¬ r.strand = "-")).map OutRec.ordinal = [2]
    ∧ ((dedupByPeak [] c2Group).filter (fun l => ¬ l.strand = "-")).length = 1
    ∧ ([2] : List Nat) ≠ [1] :=
  ⟨rfl, rfl, by decide⟩

/-- C2 amended: in every gene group, interleaved or not, the
negative-strand ordinals are exactly the reversed range 1..n, each
used once (n the number of negative-strand deduplicated rows), and
every positive-strand record receives as ordinal its one-based
position among ALL deduplicated rows of the group, negative-strand
rows included; consequently the positive-strand ordinals are exactly
1..p precisely in the groups where every positive-strand row precedes
every negative-strand row, and interleaved negative-strand rows shift
them otherwise. -/
theorem c2_amended (g : List IRow) :
    (((processGroup g).filter (fun r => r.strand = "-")).map OutRec.ordinal
      = (List.range' 1
          ((dedupByPeak [] g).filter (fun l => l.strand = "-")).length).reverse)
    ∧ (∀ r ∈ processGroup g, ¬ r.strand = "-" →
        ∃ row, (dedupByPeak [] g)[r.ordinal - 1]? = some row
          ∧ r.peak = row.peak ∧ r.strand = row.strand ∧ r.gene = row.gene)
    ∧ (∀ P N, dedupByPeak [] g = P ++ N →
        (∀ r ∈ P, r.strand ≠ "-") → (∀ r ∈ N, r.strand = "-") →
        ((processGroup g).filter (fun r => ¬ r.strand = "-")).map OutRec.ordinal
          = List.range' 1 P.length) := by
  refine ⟨?_, ?_, ?_⟩
  · rw [processGroup, List.filter_append,
      List.filter_eq_nil_iff.mpr (by
        intro a ha
        obtain ⟨p, hp, rfl⟩ := List.mem_map.mp ha
        have hps : p.2.strand ≠ "-" := by simpa using List.of_mem_filter hp
        simpa [getOutRec] using hps),
      List.filter_eq_self.mpr (by
        intro a ha
        obtain ⟨p, hp, rfl⟩ := List.mem_map.mp ha
        have hp2 : p.2 ∈ (dedupByPeak [] g).filter (fun l => l.strand = "-") :=
          enumFrom_snd_mem _ 0 p (by simpa [List.enum] using hp)
        simpa [getOutRec] using List.of_mem_filter hp2)]
    rw [List.nil_append, List.map_map]
    have hcomp : (OutRec.ordinal ∘ fun p => getOutRec p.2
        (((dedupByPeak [] g).filter (fun l => l.strand = "-")).length - p.1))
        = (fun j => 0 + ((dedupByPeak [] g).filter (fun l => l.strand = "-")).length - j)
          ∘ Prod.fst := by
      funext p
      simp [getOutRec, Function.comp]
    rw [hcomp, ← List.map_map, List.enum_map_fst, rangeMapSub]
  · intro r hr hstrand
    rw [processGroup] at hr
    rcases List.mem_append.mp hr with h | h
    · obtain ⟨p, hp, rfl⟩ := List.mem_map.mp h
      obtain ⟨i, row⟩ := p
      have hpenum : (i, row) ∈ List.enumFrom 0 (dedupByPeak [] g) := by
        simpa [List.enum] using List.mem_of_mem_filter hp
      obtain ⟨_, hlt, heq⟩ := List.mem_enumFrom hpenum
      have hlt2 : i < (dedupByPeak [] g).length := by simpa using hlt
      refine ⟨row, ?_, rfl, rfl, rfl⟩
      have hord : (getOutRec row (i + 1)).ordinal - 1 = i := by
        simp [getOutRec]
      rw [hord, List.getElem?_eq_getElem hlt2]
      simp only [Nat.sub_zero] at heq
      rw [heq]
    · obtain ⟨p, hp, rfl⟩ := List.mem_map.mp h
      have hp2 : p.2 ∈ (dedupByPeak [] g).filter (fun l => l.strand = "-") :=
        enumFrom_snd_mem _ 0 p (by simpa [List.enum] using hp)
      have hps : p.2.strand = "-" := by simpa using List.of_mem_filter hp2
      exact absurd hps hstrand
  · intro P N hd hP hN
    have hfilterd : (P ++ N).filter (fun l => l.strand = "-") = N := by
      rw [List.filter_append,
        List.filter_eq_nil_iff.mpr (by intro a ha; simpa using hP a ha),
        List.filter_eq_self.mpr (by intro a ha; simpa using hN a ha)]
      rfl
    have henum : (P ++ N).enum = P.enum ++ List.enumFrom P.length N :=
      List.enum_append P N
    have hposfilter : ((P ++ N).enum.filter (fun p => p.2.strand ≠ "-")) = P.enum := by
      rw [henum, List.filter_append,
        List.filter_eq_self.mpr (by
          intro a ha
          have : a.2 ∈ P := enumFrom_snd_mem P 0 a (by simpa [List.enum] using ha)
          simpa using hP a.2 this),
        List.filter_eq_nil_iff.mpr (by
          intro a ha
          have : a.2 ∈ N := enumFrom_snd_mem N P.length a ha
          simpa using hN a.2 this)]
      exact List.append_nil _
    have hout : processGroup g
        = (P.enum.map (fun p => getOutRec p.2 (p.1 + 1)))
          ++ (N.enum.map (fun p => getOutRec p.2 (N.length - p.1))) := by
      simp only [processGroup, hd, hfilterd, hposfilter]
    rw [hout, List.filter_append,
      List.filter_eq_self.mpr (by
        intro a ha
        obtain ⟨p, hp, rfl⟩ := List.mem_map.mp ha
        have : p.2 ∈ P := enumFrom_snd_mem P 0 p (by simpa [List.enum] using hp)
        simpa [getOutRec] using hP p.2 this),
      List.filter_eq_nil_iff.mpr (by
        intro a ha
        obtain ⟨p, hp, rfl⟩ := List.mem_map.mp ha
        have : p.2 ∈ N := enumFrom_snd_mem N 0 p (by simpa [List.enum] using hp)
        simpa [getOutRec] using hN p.2 this)]
    rw [List.append_nil, List.map_map]
    have : (OutRec.ordinal ∘ fun p => getOutRec p.2 (p.1 + 1))
        = (fun j => j + 1) ∘ Prod.fst := by
      funext p
      simp [getOutRec, Function.comp]
    rw [this, ← List.map_map, List.enum_map_fst, rangeMapAddOne]

/-- Witness for C2 amended: the general clauses are exercised on the
interleaved group c2Group (the positive record there carries ordinal
2 and sits at one-based position 2 of the deduplicated rows), the
conditional clause on the separated group c2GroupOrdered. -/
theorem c2_amended_witness :
    (((processGroup c2Group).filter (fun r => r.strand = "-")).map OutRec.ordinal
      = (List.range' 1
          ((dedupByPeak [] c2Group).filter (fun l => l.strand = "-")).length).reverse)
    ∧ (∃ row, (dedupByPeak [] c2Group)[(⟨"chr1", 200, 210, "peak_1:1", "G", "+", 2⟩
          : OutRec).ordinal - 1]? = some row
        ∧ (⟨"chr1", 200, 210, "peak_1:1", "G", "+", 2⟩ : OutRec).peak = row.peak
        ∧ (⟨"chr1", 200, 210, "peak_1:1", "G", "+", 2⟩ : OutRec).strand = row.strand
        ∧ (⟨"chr1", 200, 210, "peak_1:1", "G", "+", 2⟩ : OutRec).gene = row.gene)
    ∧ ((processGroup c2GroupOrdered).filter (fun r => ¬ r.strand = "-")).map OutRec.ordinal
      = List.range' 1
          ([⟨"chr1", 100, 110, "peak_0:1", "chr1", 0, 400, "G", "0", "+"⟩,
            ⟨"chr1", 200, 210, "peak_1:1", "chr1", 0, 400, "G", "0", "+"⟩]
            : List IRow).length := by
  refine ⟨(c2_amended c2Group).1, ?_, ?_⟩
  · exact (c2_amended c2Group).2.1 ⟨"chr1", 200, 210, "peak_1:1", "G", "+", 2⟩
      (by decide) (by decide)
  · exact (c2_amended c2GroupOrdered).2.2
      [⟨"chr1", 100, 110, "peak_0:1", "chr1", 0, 400, "G", "0", "+"⟩,
       ⟨"chr1", 200, 210, "peak_1:1", "chr1", 0, 400, "G", "0", "+"⟩]
      [⟨"chr1", 300, 310, "peak_2:1", "chr1", 0, 400, "G", "0", "-"⟩]
      rfl (by decide) (by decide)

/-- C1 counterexample: with accepted classes {1}, the pipeline on
c1Files emits a record whose resolved class is 2; the output filter
the claim describes would have removed it (filtering the actual
output by the accepted set leaves nothing, yet the output is
non-empty). -/
theorem c1_counterexample :
    mainRun c1Exons c1Files [] 2 = Except.ok c1Out
    ∧ outputFilterSpec (acceptedClasses []) c1Out = []
    ∧ c1Out ≠ [] :=
  ⟨rfl, rfl, by decide⟩

/-- C1 amended: the program applies no output-stage classification
filter: its final output is exactly the gene-assignment records of
the annotated consensus peaks, whatever their resolved classes; the
accepted set only filters the per-sample input peaks upstream. -/
theorem c1_amended (exons : List Bed6) (files : List (String × List Bed6))
    (supplied : List Int) (cutoff : Nat) (out : List OutRec)
    (h : mainRun exons files supplied cutoff = Except.ok out) :
    ∃ tmps peaks,
      filter_peaks files (acceptedClasses supplied) = Except.ok tmps
      ∧ multi_intersect (tmps.map Prod.snd) (files.map Prod.snd) cutoff = Except.ok peaks
      ∧ out = intersectRecords exons peaks := by
  rw [mainRun] at h
  rcases hf : filter_peaks files (acceptedClasses supplied) with _ | tmps
  · rw [hf] at h; cases h
  · rw [hf] at h
    dsimp only at h
    rcases hm : multi_intersect (tmps.map Prod.snd) (files.map Prod.snd) cutoff with _ | peaks
    · rw [hm] at h; cases h
    · rw [hm] at h
      dsimp only at h
      cases h
      exact ⟨tmps, peaks, rfl, hm, rfl⟩

/-- Witness for C1 amended on the c1 input. -/
theorem c1_amended_witness :
    ∃ tmps peaks,
      filter_peaks c1Files (acceptedClasses []) = Except.ok tmps
      ∧ multi_intersect (tmps.map Prod.snd) (c1Files.map Prod.snd) 2 = Except.ok peaks
      ∧ c1Out = intersectRecords c1Exons peaks :=
  c1_amended c1Exons c1Files [] 2 c1Out rfl

/-- Separation of coverage rows and intervals: on a shared
chromosome, the first ends before the second starts. -/
def sepIv (a b : Iv) : Prop :=
  a.chrom = b.chrom → a.stop ≤ b.start

/-- Helper: the step equation of chunking once the chunks of the
tail are known. -/
theorem chunksBy_cons_eq {α : Type} (adj : α → α → Bool) (x y : α) (ys : List α)
    (t : List α) (chs : List (List α)) (h : chunksBy adj (y :: ys) = (y :: t) :: chs) :
    chunksBy adj (x :: y :: ys)
      = if adj x y then (x :: y :: t) :: chs else [x] :: (y :: t) :: chs := by
  rw [chunksBy, h]

/-- Helper: chunking a one-element list. -/
theorem chunksBy_singleton {α : Type} (adj : α → α → Bool) (x : α) :
    chunksBy adj [x] = [[x]] := by
  rw [chunksBy, chunksBy]

/-- Helper: a chunking of a non-empty list is non-empty and its
first chunk starts with the first element. -/
theorem chunksBy_cons_head {α : Type} (adj : α → α → Bool) (x : α) :
    ∀ (xs : List α), ∃ t chs, chunksBy adj (x :: xs) = (x :: t) :: chs := by
  intro xs
  induction xs generalizing x with
  | nil => exact ⟨[], [], chunksBy_singleton adj x⟩
  | cons y ys ih =>
    obtain ⟨t', chs', hy⟩ := ih y
    by_cases h : adj x y = true
    · refine ⟨y :: t', chs', ?_⟩
      rw [chunksBy_cons_eq adj x y ys t' chs' hy, if_pos h]
    · refine ⟨[], (y :: t') :: chs', ?_⟩
      rw [chunksBy_cons_eq adj x y ys t' chs' hy, if_neg h]

/-- Helper: when the head absorbs its adjacent successor, the chunk
spans are unchanged. -/
theorem specMerge_absorb (cur y : Iv) (rest : List Iv)
    (hadj : specAdj cur y = true) (hle : cur.stop ≤ y.stop) :
    specMerge (cur :: y :: rest) = specMerge (⟨cur.chrom, cur.start, y.stop⟩ :: rest) := by
  have hchrom : cur.chrom = y.chrom := by
    have := of_decide_eq_true hadj
    exact this.1
  cases rest with
  | nil =>
    have h1 : chunksBy specAdj [cur, y] = [[cur, y]] := by
      rw [chunksBy_cons_eq specAdj cur y [] [] [] (chunksBy_singleton specAdj y),
        if_pos hadj]
    rw [specMerge, specMerge, h1, chunksBy_singleton]
    simp only [List.map_cons, List.map_nil, chunkSpan, maxStop]
    rw [Nat.max_eq_right hle]
  | cons z rest' =>
    obtain ⟨t, chs, hcz⟩ := chunksBy_cons_head specAdj z rest'
    have hyz : specAdj y z = specAdj (⟨cur.chrom, cur.start, y.stop⟩ : Iv) z := by
      rw [specAdj, specAdj]
      simp only [hchrom]
    by_cases hz : specAdj y z = true
    · have h2 : chunksBy specAdj (y :: z :: rest') = (y :: z :: t) :: chs := by
        rw [chunksBy_cons_eq specAdj y z rest' t chs hcz, if_pos hz]
      have h3 : chunksBy specAdj (cur :: y :: z :: rest')
          = (cur :: y :: z :: t) :: chs := by
        rw [chunksBy_cons_eq specAdj cur y (z :: rest') (z :: t) chs h2, if_pos hadj]
      have h4 : chunksBy specAdj ((⟨cur.chrom, cur.start, y.stop⟩ : Iv) :: z :: rest')
          = ((⟨cur.chrom, cur.start, y.stop⟩ : Iv) :: z :: t) :: chs := by
        rw [chunksBy_cons_eq specAdj _ z rest' t chs hcz, if_pos (hyz ▸ hz)]
      rw [specMerge, specMerge, h3, h4]
      simp only [List.map_cons, chunkSpan, maxStop]
      rw [Nat.max_eq_right hle]
    · have h2 : chunksBy specAdj (y :: z :: rest') = [y] :: (z :: t) :: chs := by
        rw [chunksBy_cons_eq specAdj y z rest' t chs hcz, if_neg hz]
      have h3 : chunksBy specAdj (cur :: y :: z :: rest')
          = (cur :: y :: []) :: (z :: t) :: chs := by
        rw [chunksBy_cons_eq specAdj cur y (z :: rest') [] ((z :: t) :: chs) h2,
          if_pos hadj]
      have h4 : chunksBy specAdj ((⟨cur.chrom, cur.start, y.stop⟩ : Iv) :: z :: rest')
          = [(⟨cur.chrom, cur.start, y.stop⟩ : Iv)] :: (z :: t) :: chs := by
        rw [chunksBy_cons_eq specAdj _ z rest' t chs hcz, if_neg (fun hc => hz (hyz ▸ hc))]
      rw [specMerge, specMerge, h3, h4]
      simp only [List.map_cons, chunkSpan, maxStop]
      rw [Nat.max_eq_right hle]

/-- Helper: on separated well-formed intervals, the fold of the gap
merge engine equals the chunk-and-span description of the spec. -/
theorem mergeGo_spec :
    ∀ (xs : List Iv) (cur : Iv), List.Chain' sepIv (cur :: xs) →
    (∀ iv ∈ xs, iv.start < iv.stop) →
    mergeGo cur xs = specMerge (cur :: xs) := by
  intro xs
  induction xs with
  | nil =>
    intro cur _ _
    rw [mergeGo, specMerge, chunksBy_singleton]
    simp only [List.map_cons, List.map_nil, chunkSpan, maxStop]
  | cons y rest ih =>
    intro cur hchain hval
    have hsep1 : sepIv cur y := (List.chain'_cons.mp hchain).1
    have hchain2 : List.Chain' sepIv (y :: rest) := (List.chain'_cons.mp hchain).2
    have hvy : y.start < y.stop := hval y (List.mem_cons_self y rest)
    have hvrest : ∀ iv ∈ rest, iv.start < iv.stop :=
      fun iv hiv => hval iv (List.mem_cons_of_mem y hiv)
    by_cases hadj : y.chrom = cur.chrom ∧ y.start ≤ cur.stop + 2
    · have hchrom : cur.chrom = y.chrom := hadj.1.symm
      have hle : cur.stop ≤ y.stop := le_trans (hsep1 hchrom) (le_of_lt hvy)
      have hmax : max cur.stop y.stop = y.stop := Nat.max_eq_right hle
      rw [mergeGo, if_pos hadj, hmax]
      have hchain3 : List.Chain' sepIv ((⟨cur.chrom, cur.start, y.stop⟩ : Iv) :: rest) := by
        cases rest with
        | nil => simp
        | cons z rest' =>
          rw [List.chain'_cons]
          refine ⟨?_, (List.chain'_cons.mp hchain2).2⟩
          intro hc
          exact (List.chain'_cons.mp hchain2).1 (hchrom ▸ hc)
      rw [ih _ hchain3 hvrest]
      exact (specMerge_absorb cur y rest
        (decide_eq_true ⟨hchrom, hadj.2⟩) hle).symm
    · rw [mergeGo, if_neg hadj]
      rw [ih y hchain2 hvrest]
      obtain ⟨t, chs, hch⟩ := chunksBy_cons_head specAdj y rest
      have hnadj : ¬ specAdj cur y = true := by
        intro hc
        have := of_decide_eq_true hc
        exact hadj ⟨this.1.symm, this.2⟩
      have h2 : chunksBy specAdj (cur :: y :: rest) = [cur] :: (y :: t) :: chs := by
        rw [chunksBy_cons_eq specAdj cur y rest t chs hch, if_neg hnadj]
      rw [specMerge, specMerge, h2, hch]
      simp only [List.map_cons, chunkSpan, maxStop]

/-- C8: the consensus builder drops every coverage cluster whose
support is strictly below the cutoff, gap-merges adjacent surviving
clusters within two base pairs into regions spanning their union (the
chunk-and-span description of the spec), and names the regions
peak_0, peak_1, ... in scan order. -/
theorem c8_consensus_regions (rows : List CovRow) (cutoff : Nat)
    (hsep : rows.Pairwise (fun a b => a.chrom = b.chrom → a.stop ≤ b.start))
    (hval : ∀ r ∈ rows, r.start < r.stop) :
    regionsFromRows rows cutoff
      = (specMerge ((clusterFilter rows cutoff).map covIv)).enum.map
          (fun p => ⟨p.2.chrom, p.2.start, p.2.stop, "peak_" ++ natToStr p.1⟩) := by
  have hpair : ((clusterFilter rows cutoff).map covIv).Pairwise sepIv := by
    rw [List.pairwise_map]
    exact (List.Pairwise.sublist (List.filter_sublist rows) hsep).imp (fun h => h)
  have hv : ∀ iv ∈ (clusterFilter rows cutoff).map covIv, iv.start < iv.stop := by
    intro iv hiv
    obtain ⟨r, hr, rfl⟩ := List.mem_map.mp hiv
    exact hval r (List.mem_of_mem_filter hr)
  have key : mergeGap ((clusterFilter rows cutoff).map covIv)
      = specMerge ((clusterFilter rows cutoff).map covIv) := by
    cases hl : (clusterFilter rows cutoff).map covIv with
    | nil => rfl
    | cons x xs =>
      rw [mergeGap]
      have hch : List.Chain' sepIv (x :: xs) := by
        rw [← hl]; exact hpair.chain'
      have hvv : ∀ iv ∈ xs, iv.start < iv.stop := by
        intro iv hiv
        exact hv iv (hl ▸ List.mem_cons_of_mem x hiv)
      exact mergeGo_spec xs x hch hvv
  rw [regionsFromRows, key]

/-- Witness for C8 on concrete coverage rows. -/
theorem c8_consensus_regions_witness :
    regionsFromRows c8Rows 2
      = (specMerge ((clusterFilter c8Rows 2).map covIv)).enum.map
          (fun p => ⟨p.2.chrom, p.2.start, p.2.stop, "peak_" ++ natToStr p.1⟩) :=
  c8_consensus_regions c8Rows 2 (by decide) (by decide)

/-- Helper: character codes determine the string. -/
theorem charCodes_inj {s t : String} (h : charCodes s = charCodes t) : s = t := by
  have hinj : Function.Injective Char.toNat := fun a b hab => Char.ext (UInt32.ext hab)
  have hl : s.toList = t.toList := List.map_injective_iff.mpr hinj h
  exact String.ext hl

/-- Helper: the row order as a key comparison. -/
theorem rowLeP_iff (a b : IRow) : rowLeP a b ↔ rowKey a ≤ rowKey b := by
  rw [rowLeP, rowLe, decide_eq_true_eq]

/-- Helper: the row order is total. -/
theorem rowLeP_total (a b : IRow) : rowLeP a b ∨ rowLeP b a := by
  rw [rowLeP_iff, rowLeP_iff]
  exact le_total (rowKey a) (rowKey b)

/-- Helper: the row order is transitive. -/
theorem rowLeP_trans {a b c : IRow} (h1 : rowLeP a b) (h2 : rowLeP b c) : rowLeP a c := by
  rw [rowLeP_iff] at h1 h2 ⊢
  exact le_trans h1 h2

/-- Helper: inserting a row permutes consing it. -/
theorem insertRow_perm (x : IRow) : ∀ (l : List IRow), (insertRow x l).Perm (x :: l) := by
  intro l
  induction l with
  | nil => exact List.Perm.refl _
  | cons y ys ih =>
    rw [insertRow]
    by_cases h : rowLe x y
    · rw [if_pos h]
    · rw [if_neg h]
      exact (ih.cons y).trans (List.Perm.swap x y ys)

/-- Helper: sorting permutes the input. -/
theorem sortRows_perm : ∀ (l : List IRow), (sortRows l).Perm l := by
  intro l
  induction l with
  | nil => exact List.Perm.refl _
  | cons x xs ih =>
    rw [sortRows]
    exact (insertRow_perm x (sortRows xs)).trans (ih.cons x)

/-- Helper: insertion preserves sortedness. -/
theorem insertRow_pairwise (x : IRow) :
    ∀ (l : List IRow), l.Pairwise rowLeP → (insertRow x l).Pairwise rowLeP := by
  intro l
  induction l with
  | nil => intro _; exact List.pairwise_cons.mpr ⟨fun a ha => absurd ha (List.not_mem_nil a), List.Pairwise.nil⟩
  | cons y ys ih =>
    intro hp
    obtain ⟨hy, hys⟩ := List.pairwise_cons.mp hp
    rw [insertRow]
    by_cases h : rowLe x y
    · rw [if_pos h]
      refine List.pairwise_cons.mpr ⟨?_, hp⟩
      intro z hz
      rcases List.mem_cons.mp hz with rfl | hz2
      · exact h
      · exact rowLeP_trans h (hy z hz2)
    · rw [if_neg h]
      refine List.pairwise_cons.mpr ⟨?_, ih hys⟩
      intro z hz
      have hz2 : z ∈ x :: ys := (insertRow_perm x ys).mem_iff.mp hz
      rcases List.mem_cons.mp hz2 with rfl | hz3
      · rcases rowLeP_total z y with hzy | hyz
        · exact absurd hzy h
        · exact hyz
      · exact hy z hz3

/-- Helper: the sorted rows are pairwise ordered. -/
theorem sortRows_pairwise : ∀ (l : List IRow), (sortRows l).Pairwise rowLeP := by
  intro l
  induction l with
  | nil => exact List.Pairwise.nil
  | cons x xs ih =>
    rw [sortRows]
    exact insertRow_pairwise x (sortRows xs) ih

/-- Helper: the deduplication output is a sublist of the input. -/
theorem dedupByPeak_sublist : ∀ (seen : List String) (l : List IRow),
    (dedupByPeak seen l).Sublist l := by
  intro seen l
  induction l generalizing seen with
  | nil => exact List.Sublist.refl _
  | cons r rs ih =>
    rw [dedupByPeak]
    by_cases h : r.peak ∈ seen
    · rw [if_pos h]
      exact List.Sublist.cons r (ih seen)
    · rw [if_neg h]
      exact List.Sublist.cons₂ r (ih (r.peak :: seen))

/-- Helper: deduplicated rows never carry an already seen key. -/
theorem dedupByPeak_not_seen : ∀ (seen : List String) (l : List IRow) (r : IRow),
    r ∈ dedupByPeak seen l → r.peak ∉ seen := by
  intro seen l
  induction l generalizing seen with
  | nil => intro r hr; cases hr
  | cons x xs ih =>
    intro r hr
    rw [dedupByPeak] at hr
    by_cases h : x.peak ∈ seen
    · rw [if_pos h] at hr
      exact ih seen r hr
    · rw [if_neg h] at hr
      rcases List.mem_cons.mp hr with rfl | hr2
      · exact h
      · intro hc
        exact ih (x.peak :: seen) r hr2 (List.mem_cons_of_mem _ hc)

/-- Helper: deduplicated rows have pairwise distinct keys. -/
theorem dedupByPeak_pairwise : ∀ (seen : List String) (l : List IRow),
    (dedupByPeak seen l).Pairwise (fun a b => a.peak ≠ b.peak) := by
  intro seen l
  induction l generalizing seen with
  | nil => exact List.Pairwise.nil
  | cons x xs ih =>
    rw [dedupByPeak]
    by_cases h : x.peak ∈ seen
    · rw [if_pos h]
      exact ih seen
    · rw [if_neg h]
      refine List.pairwise_cons.mpr ⟨?_, ih (x.peak :: seen)⟩
      intro b hb
      have := dedupByPeak_not_seen (x.peak :: seen) xs b hb
      intro hc
      exact this (hc ▸ List.mem_cons_self _ _)

/-- Helper: in a list with pairwise distinct keys, the key determines
the element. -/
theorem pairwise_ne_inj {α β : Type} (key : α → β) :
    ∀ (l : List α), l.Pairwise (fun a b => key a ≠ key b) →
    ∀ a ∈ l, ∀ b ∈ l, key a = key b → a = b := by
  intro l
  induction l with
  | nil => intro _ a ha; cases ha
  | cons x xs ih =>
    intro hp a ha b hb hk
    obtain ⟨hx, hxs⟩ := List.pairwise_cons.mp hp
    rcases List.mem_cons.mp ha with rfl | ha2
    · rcases List.mem_cons.mp hb with rfl | hb2
      · rfl
      · exact absurd hk (hx b hb2)
    · rcases List.mem_cons.mp hb with rfl | hb2
      · exact absurd hk.symm (hx a ha2)
      · exact ih hxs a ha2 b hb2 hk

/-- Helper: chunking partitions the list. -/
theorem chunksBy_flatten {α : Type} (adj : α → α → Bool) :
    ∀ (l : List α), (chunksBy adj l).flatten = l := by
  intro l
  induction l with
  | nil => rfl
  | cons x xs ih =>
    cases xs with
    | nil => rw [chunksBy_singleton]; rfl
    | cons y ys =>
      obtain ⟨t, chs, h⟩ := chunksBy_cons_head adj y ys
      rw [h] at ih
      have hys : t ++ chs.flatten = ys := by
        rw [List.flatten_cons, List.cons_append] at ih
        exact (List.cons.injEq _ _ _ _).mp ih |>.2
      rw [chunksBy_cons_eq adj x y ys t chs h]
      by_cases hadj : adj x y = true
      · rw [if_pos hadj, List.flatten_cons, List.cons_append, List.cons_append, hys]
      · rw [if_neg hadj, List.flatten_cons, ih, List.singleton_append]

/-- Helper: every chunk is non-empty. -/
theorem chunks_ne_nil {α : Type} (adj : α → α → Bool) :
    ∀ (l : List α) (c : List α), c ∈ chunksBy adj l → c ≠ [] := by
  intro l
  induction l with
  | nil => intro c hc; cases hc
  | cons x xs ih =>
    cases xs with
    | nil =>
      intro c hc
      rw [chunksBy_singleton] at hc
      rcases List.mem_cons.mp hc with rfl | h2
      · exact List.cons_ne_nil _ _
      · cases h2
    | cons y ys =>
      obtain ⟨t, chs, h⟩ := chunksBy_cons_head adj y ys
      intro c hc
      rw [chunksBy_cons_eq adj x y ys t chs h] at hc
      by_cases hadj : adj x y = true
      · rw [if_pos hadj] at hc
        rcases List.mem_cons.mp hc with rfl | h2
        · exact List.cons_ne_nil _ _
        · exact ih c (h ▸ List.mem_cons_of_mem _ h2)
      · rw [if_neg hadj] at hc
        rcases List.mem_cons.mp hc with rfl | h2
        · exact List.cons_ne_nil _ _
        · exact ih c (h ▸ h2)

/-- Helper: consecutive elements inside a chunk are adjacent. -/
theorem chunk_chain {α : Type} (adj : α → α → Bool) :
    ∀ (l : List α) (c : List α), c ∈ chunksBy adj l →
    List.Chain' (fun a b => adj a b = true) c := by
  intro l
  induction l with
  | nil => intro c hc; cases hc
  | cons x xs ih =>
    cases xs with
    | nil =>
      intro c hc
      rw [chunksBy_singleton] at hc
      rcases List.mem_cons.mp hc with rfl | h2
      · exact List.chain'_singleton x
      · cases h2
    | cons y ys =>
      obtain ⟨t, chs, h⟩ := chunksBy_cons_head adj y ys
      intro c hc
      rw [chunksBy_cons_eq adj x y ys t chs h] at hc
      by_cases hadj : adj x y = true
      · rw [if_pos hadj] at hc
        rcases List.mem_cons.mp hc with rfl | h2
        · exact List.chain'_cons.mpr ⟨hadj, ih (y :: t) (h ▸ List.mem_cons_self _ _)⟩
        · exact ih c (h ▸ List.mem_cons_of_mem _ h2)
      · rw [if_neg hadj] at hc
        rcases List.mem_cons.mp hc with rfl | h2
        · exact List.chain'_singleton x
        · exact ih c (h ▸ h2)

/-- Helper: between two consecutive chunks, the last element of the
first and the first element of the second are not adjacent. -/
theorem chunksBy_boundary {α : Type} (adj : α → α → Bool) :
    ∀ (l : List α),
    List.Chain' (fun c1 c2 => ∀ x y, c1.getLast? = some x → c2.head? = some y →
      adj x y = false) (chunksBy adj l) := by
  intro l
  induction l with
  | nil => exact List.chain'_nil
  | cons x xs ih =>
    cases xs with
    | nil =>
      rw [chunksBy_singleton]
      exact List.chain'_singleton _
    | cons y ys =>
      obtain ⟨t, chs, h⟩ := chunksBy_cons_head adj y ys
      rw [h] at ih
      rw [chunksBy_cons_eq adj x y ys t chs h]
      by_cases hadj : adj x y = true
      · rw [if_pos hadj]
        obtain ⟨hhead, htail⟩ := List.chain'_cons'.mp ih
        refine List.chain'_cons'.mpr ⟨?_, htail⟩
        intro c2 hc2 a b hlast hhd
        apply hhead c2 hc2 a b _ hhd
        rw [← hlast, List.getLast?_cons_cons]
      · rw [if_neg hadj]
        refine List.chain'_cons.mpr ⟨?_, ih⟩
        intro a b hlast hhd
        have ha : a = x := by
          simp only [List.getLast?_singleton, Option.some.injEq] at hlast
          exact hlast.symm
        have hb : b = y := by
          simp only [List.head?_cons, Option.some.injEq] at hhd
          exact hhd.symm
        subst ha; subst hb
        exact Bool.eq_false_iff.mpr hadj

/-- Helper: a chain of gene equalities makes the gene constant on the
whole chunk. -/
theorem chain_gene_const :
    ∀ (c : List IRow), List.Chain' (fun a b : IRow => decide (a.gene = b.gene) = true) c →
    ∀ a ∈ c, ∀ b ∈ c, a.gene = b.gene := by
  have hhead : ∀ (c : List IRow) (x : IRow),
      List.Chain' (fun a b : IRow => decide (a.gene = b.gene) = true) (x :: c) →
      ∀ b ∈ x :: c, x.gene = b.gene := by
    intro c
    induction c with
    | nil =>
      intro x _ b hb
      rcases List.mem_cons.mp hb with rfl | h2
      · rfl
      · cases h2
    | cons y cs ih =>
      intro x hch b hb
      obtain ⟨hxy, htail⟩ := List.chain'_cons.mp hch
      have hxy2 : x.gene = y.gene := of_decide_eq_true hxy
      rcases List.mem_cons.mp hb with rfl | h2
      · rfl
      · exact hxy2.trans (ih y htail b h2)
  intro c hch a ha b hb
  cases c with
  | nil => cases ha
  | cons x cs =>
    have h1 := hhead cs x hch a ha
    have h2 := hhead cs x hch b hb
    rw [← h1, ← h2]

/-- Helper: case split of a lexicographic comparison. -/
theorem lex_cases {α β : Type} [LinearOrder α] [LE β] (x1 x2 : α) (y1 y2 : β)
    (h : toLex (x1, y1) ≤ toLex (x2, y2)) : x1 < x2 ∨ (x1 = x2 ∧ y1 ≤ y2) :=
  (Prod.Lex.le_iff (x1, y1) (x2, y2)).mp h

/-- Helper: a row whose key lies between two rows sharing a
chromosome and gene also carries that chromosome and gene. -/
theorem key_between (a m b : IRow)
    (h1 : rowKey a ≤ rowKey m) (h2 : rowKey m ≤ rowKey b)
    (hc : a.chrom = b.chrom) (hg : a.gene = b.gene) :
    m.chrom = a.chrom ∧ m.gene = a.gene := by
  rw [rowKey, rowKey] at h1 h2
  have hcc : charCodes a.chrom = charCodes b.chrom := by rw [hc]
  rcases lex_cases _ _ _ _ h1 with hlt1 | ⟨he1, hi1⟩
  · rcases lex_cases _ _ _ _ h2 with hlt2 | ⟨he2, _⟩
    · exact absurd (hlt1.trans hlt2) (hcc ▸ lt_irrefl _)
    · rw [he2, ← hcc] at hlt1
      exact absurd hlt1 (lt_irrefl _)
  · have hchrom : m.chrom = a.chrom := (charCodes_inj he1).symm
    have hgg : charCodes a.gene = charCodes b.gene := by rw [hg]
    rcases lex_cases _ _ _ _ hi1 with hglt1 | ⟨hge1, _⟩
    · rcases lex_cases _ _ _ _ h2 with hlt2 | ⟨_, hi2⟩
      · rw [← he1, ← hcc] at hlt2
        exact absurd hlt2 (lt_irrefl _)
      · rcases lex_cases _ _ _ _ hi2 with hglt2 | ⟨hge2, _⟩
        · exact absurd (hglt1.trans hglt2) (hgg ▸ lt_irrefl _)
        · rw [hge2, ← hgg] at hglt1
          exact absurd hglt1 (lt_irrefl _)
    · exact ⟨hchrom, (charCodes_inj hge1).symm⟩

/-- Helper: under sortedness, gene-constant chunks separated by gene
changes have pairwise disjoint chromosome and gene keys. -/
theorem chunks_disjoint_keys :
    ∀ (L : List (List IRow)),
    (∀ c ∈ L, c ≠ []) →
    (∀ c ∈ L, ∀ a ∈ c, ∀ b ∈ c, a.gene = b.gene) →
    List.Chain' (fun c1 c2 => ∀ x y, c1.getLast? = some x → c2.head? = some y →
      x.gene ≠ y.gene) L →
    L.flatten.Pairwise rowLeP →
    L.Pairwise (fun c1 c2 => ∀ r1 ∈ c1, ∀ r2 ∈ c2,
      ¬ (r1.chrom = r2.chrom ∧ r1.gene = r2.gene)) := by
  intro L
  induction L with
  | nil => intro _ _ _ _; exact List.Pairwise.nil
  | cons c1 L' ih =>
    intro hne hconst hbound hsorted
    have hsorted2 : L'.flatten.Pairwise rowLeP := by
      rw [List.flatten_cons] at hsorted
      exact (List.pairwise_append.mp hsorted).2.1
    have hcross : ∀ a ∈ c1, ∀ b ∈ L'.flatten, rowLeP a b := by
      rw [List.flatten_cons] at hsorted
      exact (List.pairwise_append.mp hsorted).2.2
    refine List.pairwise_cons.mpr ⟨?_, ih
      (fun c hc => hne c (List.mem_cons_of_mem _ hc))
      (fun c hc => hconst c (List.mem_cons_of_mem _ hc))
      hbound.tail hsorted2⟩
    intro c hc r1 hr1 r2 hr2 hkey
    cases L' with
    | nil => cases hc
    | cons c2 L'' =>
      have hc2ne : c2 ≠ [] := hne c2 (List.mem_cons_of_mem _ (List.mem_cons_self _ _))
      cases hc2 : c2 with
      | nil => exact hc2ne hc2
      | cons hd c2' =>
        have hbl : c1 ≠ [] := List.ne_nil_of_mem hr1
        have hblast : c1.getLast? = some (c1.getLast hbl) := List.getLast?_eq_getLast c1 hbl
        have hbmem : c1.getLast hbl ∈ c1 := List.getLast_mem hbl
        have hbrel : (c1.getLast hbl).gene ≠ hd.gene := by
          have := List.chain'_cons.mp hbound
          exact this.1 (c1.getLast hbl) hd hblast (by rw [hc2]; rfl)
        have hgene1 : r1.gene = (c1.getLast hbl).gene :=
          hconst c1 (List.mem_cons_self _ _) r1 hr1 (c1.getLast hbl) hbmem
        have hhdmem : hd ∈ (c2 :: L'').flatten := by
          rw [List.flatten_cons, hc2]
          exact List.mem_append_left _ (List.mem_cons_self _ _)
        have hr2mem : r2 ∈ (c2 :: L'').flatten :=
          List.mem_flatten.mpr ⟨c, hc, hr2⟩
        have hflat : (c2 :: L'').flatten = hd :: (c2' ++ L''.flatten) := by
          rw [List.flatten_cons, hc2, List.cons_append]
        rcases List.mem_cons.mp (hflat ▸ hr2mem) with rfl | hr2tail
        · exact hbrel (hgene1.symm.trans hkey.2)
        · have hhd2 : rowLeP hd r2 := by
            have := hsorted2
            rw [hflat] at this
            exact (List.pairwise_cons.mp this).1 r2 hr2tail
          have hr1hd : rowLeP r1 hd := hcross r1 hr1 hd hhdmem
          have := key_between r1 hd r2
            ((rowLeP_iff _ _).mp hr1hd) ((rowLeP_iff _ _).mp hhd2) hkey.1 hkey.2
          exact hbrel (hgene1.symm.trans this.2.symm)

/-- Helper: every emitted record copies its peak, gene and strand
fields from a deduplicated row of its group. -/
theorem mem_processGroup (g : List IRow) (r : OutRec) (hr : r ∈ processGroup g) :
    ∃ row ∈ dedupByPeak [] g,
      r.peak = row.peak ∧ r.gene = row.gene ∧ r.strand = row.strand := by
  rw [processGroup] at hr
  rcases List.mem_append.mp hr with h | h
  · obtain ⟨p, hp, rfl⟩ := List.mem_map.mp h
    have hmem : p.2 ∈ dedupByPeak [] g :=
      enumFrom_snd_mem _ 0 p (by simpa [List.enum] using List.mem_of_mem_filter hp)
    exact ⟨p.2, hmem, rfl, rfl, rfl⟩
  · obtain ⟨p, hp, rfl⟩ := List.mem_map.mp h
    have hp2 : p.2 ∈ (dedupByPeak [] g).filter (fun l => l.strand = "-") :=
      enumFrom_snd_mem _ 0 p (by simpa [List.enum] using hp)
    exact ⟨p.2, List.mem_of_mem_filter hp2, rfl, rfl, rfl⟩

/-- Helper: the records emitted for one group carry pairwise distinct
peak names. -/
theorem processGroup_pairwise_peak (g : List IRow) :
    (processGroup g).Pairwise (fun a b => a.peak ≠ b.peak) := by
  rw [processGroup]
  have hdp : (dedupByPeak [] g).Pairwise (fun a b => a.peak ≠ b.peak) :=
    dedupByPeak_pairwise [] g
  have hsub1 : (((dedupByPeak [] g).enum.filter
      (fun p => p.2.strand ≠ "-")).map Prod.snd).Sublist (dedupByPeak [] g) := by
    have h2 := (List.filter_sublist (p := fun p => p.2.strand ≠ "-")
      (dedupByPeak [] g).enum).map Prod.snd
    rw [List.enum_map_snd] at h2
    exact h2
  have hpos : (((dedupByPeak [] g).enum.filter (fun p => p.2.strand ≠ "-")).map
      (fun p => getOutRec p.2 (p.1 + 1))).Pairwise (fun a b => a.peak ≠ b.peak) := by
    rw [List.pairwise_map]
    have h3 := (List.pairwise_map (f := (Prod.snd : Nat × IRow → IRow))).mp
      (List.Pairwise.sublist hsub1 hdp)
    exact h3
  have hnegsP : ((dedupByPeak [] g).filter (fun l => l.strand = "-")).Pairwise
      (fun a b => a.peak ≠ b.peak) :=
    List.Pairwise.sublist (List.filter_sublist _) hdp
  have henumP : ((((dedupByPeak [] g).filter (fun l => l.strand = "-")).enum).map
      Prod.snd).Pairwise (fun a b => a.peak ≠ b.peak) := by
    rw [List.enum_map_snd]
    exact hnegsP
  have hneg : ((((dedupByPeak [] g).filter (fun l => l.strand = "-")).enum).map
      (fun p => getOutRec p.2
        (((dedupByPeak [] g).filter (fun l => l.strand = "-")).length - p.1))).Pairwise
      (fun a b => a.peak ≠ b.peak) := by
    rw [List.pairwise_map]
    have h3 := (List.pairwise_map (f := (Prod.snd : Nat × IRow → IRow))).mp henumP
    exact h3
  refine List.pairwise_append.mpr ⟨hpos, hneg, ?_⟩
  intro a ha b hb
  obtain ⟨p, hp, rfl⟩ := List.mem_map.mp ha
  obtain ⟨q, hq, rfl⟩ := List.mem_map.mp hb
  have hpd : p.2 ∈ dedupByPeak [] g :=
    enumFrom_snd_mem _ 0 p (by simpa [List.enum] using List.mem_of_mem_filter hp)
  have hpstrand : p.2.strand ≠ "-" := by
    have := List.of_mem_filter hp
    simpa using this
  have hq2 : q.2 ∈ (dedupByPeak [] g).filter (fun l => l.strand = "-") :=
    enumFrom_snd_mem _ 0 q (by simpa [List.enum] using hq)
  have hqd : q.2 ∈ dedupByPeak [] g := List.mem_of_mem_filter hq2
  have hqstrand : q.2.strand = "-" := by
    have := List.of_mem_filter hq2
    simpa using this
  intro hpk
  have heq : p.2 = q.2 := pairwise_ne_inj IRow.peak (dedupByPeak [] g) hdp p.2 hpd q.2 hqd hpk
  rw [heq] at hpstrand
  exact hpstrand hqstrand

/-- Helper: every join row takes its peak name and chromosome from
its source region. -/
theorem mem_intersectJoin (peaks : List Bed4) (exons : List Bed6) (r : IRow)
    (hr : r ∈ intersectJoin peaks exons) :
    ∃ p ∈ peaks, r.peak = p.name ∧ r.chrom = p.chrom := by
  rw [intersectJoin] at hr
  obtain ⟨p, hp, hm⟩ := List.mem_flatMap.mp hr
  obtain ⟨e, _, rfl⟩ := List.mem_map.mp hm
  exact ⟨p, hp, rfl, rfl⟩

/-- Helper: with pairwise distinct region ids among the input peaks,
two sorted join rows with the same region id carry the same peak name
and chromosome. -/
theorem sorted_same_rid (peaks : List Bed4) (exons : List Bed6)
    (h1 : peaks.Pairwise (fun p q => regionId p.name ≠ regionId q.name)) :
    ∀ r1 ∈ sortRows (intersectJoin peaks exons),
    ∀ r2 ∈ sortRows (intersectJoin peaks exons),
    regionId r1.peak = regionId r2.peak → r1.peak = r2.peak ∧ r1.chrom = r2.chrom := by
  intro r1 hr1 r2 hr2 hrid
  have hm1 : r1 ∈ intersectJoin peaks exons := (sortRows_perm _).mem_iff.mp hr1
  have hm2 : r2 ∈ intersectJoin peaks exons := (sortRows_perm _).mem_iff.mp hr2
  obtain ⟨p1, hp1, hpeak1, hchrom1⟩ := mem_intersectJoin _ _ _ hm1
  obtain ⟨p2, hp2, hpeak2, hchrom2⟩ := mem_intersectJoin _ _ _ hm2
  have hkeq : regionId p1.name = regionId p2.name := by
    rw [← hpeak1, ← hpeak2]
    exact hrid
  have hp12 : p1 = p2 :=
    pairwise_ne_inj (fun p => regionId p.name) peaks h1 p1 hp1 p2 hp2 hkeq
  subst hp12
  exact ⟨hpeak1.trans hpeak2.symm, hchrom1.trans hchrom2.symm⟩

/-- C9: no two records emitted by the gene assignment share the same
gene and region id, whenever the input peaks file carries pairwise
distinct region ids (as the upstream consensus output does): within a
gene group the deduplication keeps only the first occurrence, and
across groups a shared gene and region id is impossible because rows
of equal chromosome and gene always land in one group. -/
theorem c9_region_dedup (exons : List Bed6) (peaks : List Bed4)
    (h1 : peaks.Pairwise (fun p q => regionId p.name ≠ regionId q.name)) :
    (intersectRecords exons peaks).Pairwise
      (fun r1 r2 => ¬ (r1.gene = r2.gene ∧ regionId r1.peak = regionId r2.peak)) := by
  rw [intersectRecords]
  have hsameRid := sorted_same_rid peaks exons h1
  have hflat : (geneRuns (sortRows (intersectJoin peaks exons))).flatten
      = sortRows (intersectJoin peaks exons) :=
    chunksBy_flatten _ _
  apply List.pairwise_flatMap.mpr
  constructor
  · intro g hg
    have hsubg : ∀ x ∈ g, x ∈ sortRows (intersectJoin peaks exons) :=
      fun x hx => hflat ▸ List.mem_flatten.mpr ⟨g, hg, hx⟩
    refine List.Pairwise.imp_of_mem ?_ (processGroup_pairwise_peak g)
    intro a b ha hb hpk hcon
    obtain ⟨rowa, hrowa, hpa, _, _⟩ := mem_processGroup g a ha
    obtain ⟨rowb, hrowb, hpb, _, _⟩ := mem_processGroup g b hb
    have hma := hsubg rowa ((dedupByPeak_sublist [] g).subset hrowa)
    have hmb := hsubg rowb ((dedupByPeak_sublist [] g).subset hrowb)
    have hrid : regionId rowa.peak = regionId rowb.peak := by
      rw [← hpa, ← hpb]
      exact hcon.2
    have := (hsameRid rowa hma rowb hmb hrid).1
    exact hpk (by rw [hpa, hpb, this])
  · have hbound : List.Chain' (fun c1 c2 => ∀ x y, c1.getLast? = some x →
        c2.head? = some y → x.gene ≠ y.gene)
        (geneRuns (sortRows (intersectJoin peaks exons))) := by
      refine (chunksBy_boundary (fun a b : IRow => a.gene = b.gene)
        (sortRows (intersectJoin peaks exons))).imp ?_
      intro c1 c2 hrel x y hlast hhead
      exact of_decide_eq_false (hrel x y hlast hhead)
    have hdisj := chunks_disjoint_keys (geneRuns (sortRows (intersectJoin peaks exons)))
      (fun c hc => chunks_ne_nil _ _ c hc)
      (fun c hc => chain_gene_const c (chunk_chain _ _ c hc))
      hbound
      (by rw [hflat]; exact sortRows_pairwise _)
    refine List.Pairwise.imp_of_mem ?_ hdisj
    intro c1 c2 hc1 hc2 hrel x hx y hy hcon
    obtain ⟨row1, hrow1, hp1, hg1, _⟩ := mem_processGroup c1 x hx
    obtain ⟨row2, hrow2, hp2, hg2, _⟩ := mem_processGroup c2 y hy
    have hm1 : row1 ∈ sortRows (intersectJoin peaks exons) :=
      hflat ▸ List.mem_flatten.mpr ⟨c1, hc1, (dedupByPeak_sublist [] c1).subset hrow1⟩
    have hm2 : row2 ∈ sortRows (intersectJoin peaks exons) :=
      hflat ▸ List.mem_flatten.mpr ⟨c2, hc2, (dedupByPeak_sublist [] c2).subset hrow2⟩
    have hrid : regionId row1.peak = regionId row2.peak := by
      rw [← hp1, ← hp2]
      exact hcon.2
    obtain ⟨_, hchrom⟩ := hsameRid row1 hm1 row2 hm2 hrid
    exact hrel row1 ((dedupByPeak_sublist [] c1).subset hrow1)
      row2 ((dedupByPeak_sublist [] c2).subset hrow2)
      ⟨hchrom, hg1.symm.trans (hcon.1.trans hg2)⟩

/-- Witness for C9 on concrete peaks and exons, one region
overlapping two genes. -/
theorem c9_region_dedup_witness :
    (intersectRecords c9Exons c9Peaks).Pairwise
      (fun r1 r2 => ¬ (r1.gene = r2.gene ∧ regionId r1.peak = regionId r2.peak)) :=
  c9_region_dedup c9Exons c9Peaks (by decide)

end MergeSites
